import Mathlib

/-!
# inetdata-csv2mtbl: the CSV to MTBL ingestion step

A shallow embedding of `cmd/inetdata-csv2mtbl/main.go`.

* Go strings and byte slices are lists of bytes (`Fin 256`); `len` is `List.length`.
* The Go `int` flags (`-k`, `-v`, `-M`) are `Int`.
* The standard-library functions the loop calls (`strings.TrimSpace`, `strings.SplitN`)
  are modelled extensionally, below.
* The members of the imported package `inetdata` that `main` uses (`ReverseKey`,
  `MTBL_KEY_LIMIT`, `MTBL_VAL_LIMIT`, `MTBLCompressionTypes`) are parameters of the model.
* The calls into the `mtbl` binding (`SorterInit`, `WriterInit`, `Add`, `Write`, `Destroy`) and
  the writes to the standard streams are recorded as a trace of events; the results those calls
  return are read from a `World`.
-/

namespace Csv2mtbl

/-- One byte of a Go string. -/
abbrev Byte := Fin 256

/-- A Go string or byte slice. -/
abbrev Bytes := List Byte

/-- The bytes of an ASCII literal. -/
def ascii (s : String) : Bytes := s.toList.map (fun c => Fin.ofNat c.toNat)

/-! ## Go standard library: `unicode/utf8` -/

/-- The rune `utf8.RuneError` (U+FFFD). -/
def RuneError : Nat := 0xFFFD

/-- The test `lo <= b && b <= hi` on a byte. -/
def inRange (b : Byte) (lo hi : Nat) : Bool := decide (lo ≤ b.val) && decide (b.val ≤ hi)

/-- The function `utf8.DecodeRuneInString`: the first rune of `s` and its width in bytes.
An empty string gives `(RuneError, 0)`, an invalid encoding `(RuneError, 1)`. -/
def DecodeRuneInString : Bytes → Nat × Nat
  | [] => (RuneError, 0)
  | s0 :: rest =>
    if s0.val < 0x80 then (s0.val, 1)
    else if s0.val < 0xC2 then (RuneError, 1)
    else if s0.val ≤ 0xDF then
      match rest with
      | s1 :: _ =>
        if inRange s1 0x80 0xBF then ((s0.val % 0x20) * 0x40 + s1.val % 0x40, 2)
        else (RuneError, 1)
      | [] => (RuneError, 1)
    else if s0.val ≤ 0xEF then
      let lo := if s0.val = 0xE0 then 0xA0 else 0x80
      let hi := if s0.val = 0xED then 0x9F else 0xBF
      match rest with
      | s1 :: s2 :: _ =>
        if inRange s1 lo hi && inRange s2 0x80 0xBF then
          ((s0.val % 0x10) * 0x1000 + (s1.val % 0x40) * 0x40 + s2.val % 0x40, 3)
        else (RuneError, 1)
      | _ => (RuneError, 1)
    else if s0.val ≤ 0xF4 then
      let lo := if s0.val = 0xF0 then 0x90 else 0x80
      let hi := if s0.val = 0xF4 then 0x8F else 0xBF
      match rest with
      | s1 :: s2 :: s3 :: _ =>
        if inRange s1 lo hi && inRange s2 0x80 0xBF && inRange s3 0x80 0xBF then
          ((s0.val % 0x08) * 0x40000 + (s1.val % 0x40) * 0x1000 + (s2.val % 0x40) * 0x40
            + s3.val % 0x40, 4)
        else (RuneError, 1)
      | _ => (RuneError, 1)
    else (RuneError, 1)

/-- The function `utf8.RuneStart`: the byte is not a continuation byte. -/
def RuneStart (b : Byte) : Bool := !inRange b 0x80 0xBF

/-- The backward search of `utf8.DecodeLastRuneInString`, over the bytes before the last one
in reverse order: how far `start` has moved back from `end - 1` when the loop
`for start--; start >= lim; start--` stops, either at a rune start or one step past the last
of the at most `lim` bytes it may look at. -/
def backSteps : Nat → Bytes → Nat
  | 0, _ => 1
  | _, [] => 1
  | lim + 1, b :: bs => if RuneStart b then 1 else 1 + backSteps lim bs

/-- The function `utf8.DecodeLastRuneInString`: the last rune of `s` and its width. The search
for the start of the rune looks at the three bytes before the last one (`lim = end - UTFMax`);
the truncated subtraction is the clamp `if start < 0 { start = 0 }`. -/
def DecodeLastRuneInString (s : Bytes) : Nat × Nat :=
  match s.reverse with
  | [] => (RuneError, 0)
  | last :: before =>
    if last.val < 0x80 then (last.val, 1)
    else
      let start := s.length - 1 - backSteps 3 before
      let d := DecodeRuneInString (s.drop start)
      if start + d.2 ≠ s.length then (RuneError, 1) else d

/-- The function `unicode.IsSpace`. -/
def IsSpace (r : Nat) : Bool :=
  r = 0x09 || r = 0x0A || r = 0x0B || r = 0x0C || r = 0x0D || r = 0x20 || r = 0x85 || r = 0xA0
    || r = 0x1680 || (decide (0x2000 ≤ r) && decide (r ≤ 0x200A)) || r = 0x2028 || r = 0x2029
    || r = 0x202F || r = 0x205F || r = 0x3000

/-! ## Go standard library: `strings` -/

/-- The loop of `strings.TrimLeftFunc(s, unicode.IsSpace)`: drop leading white-space runes. -/
def trimLeft : Nat → Bytes → Bytes
  | 0, s => s
  | fuel + 1, s =>
    let d := DecodeRuneInString s
    if d.2 ≠ 0 && IsSpace d.1 then trimLeft fuel (s.drop d.2) else s

/-- The loop of `strings.TrimRightFunc(s, unicode.IsSpace)`: drop trailing white-space runes. -/
def trimRight : Nat → Bytes → Bytes
  | 0, s => s
  | fuel + 1, s =>
    let d := DecodeLastRuneInString s
    if d.2 ≠ 0 && IsSpace d.1 then trimRight fuel (s.take (s.length - d.2)) else s

/-- The function `strings.TrimSpace`: `s` without its leading and trailing Unicode white space,
which is what the library's ASCII fast path and its fall-back `TrimFunc(s, unicode.IsSpace)`
compute together. Each round of either loop removes at least one byte, so `len(s)` rounds
suffice. -/
def TrimSpace (s : Bytes) : Bytes :=
  let l := trimLeft s.length s
  trimRight l.length l

/-- The function `strings.Index` for a non-empty or empty `sep`: the first position at which
`sep` occurs in `s`; `none` stands for `-1`. -/
def Index : Bytes → Bytes → Option Nat
  | [], sep => if sep.isEmpty then some 0 else none
  | c :: t, sep =>
    if sep.isPrefixOf (c :: t) then some 0 else (Index t sep).map (· + 1)

/-- The function `strings.Count` for a non-empty `substr`: the number of non-overlapping
occurrences (`fuel` bounds the loop; every round consumes at least one byte). -/
def Count : Nat → Bytes → Bytes → Nat
  | 0, _, _ => 0
  | fuel + 1, s, substr =>
    match Index s substr with
    | none => 0
    | some i => 1 + Count fuel (s.drop (i + substr.length)) substr

/-- The rune count `utf8.RuneCountInString`. -/
def RuneCountInString : Nat → Bytes → Nat
  | 0, _ => 0
  | fuel + 1, s =>
    match s with
    | [] => 0
    | _ => 1 + RuneCountInString fuel (s.drop (DecodeRuneInString s).2)

/-- The loop of `strings.explode`: `k` one-rune strings, then the remainder. -/
def explodeLoop : Nat → Bytes → List Bytes
  | 0, s => [s]
  | k + 1, s =>
    let size := (DecodeRuneInString s).2
    s.take size :: explodeLoop k (s.drop size)

/-- The function `strings.explode`: `s` cut into at most `n` strings of one rune each, the last
of which is the unsplit remainder (`n < 0`: no bound). An invalid byte is a string of its own,
as in the current library; older releases put the encoding of U+FFFD in its place, which
changes neither the number of fields nor which of them are empty. -/
def explode (s : Bytes) (n : Int) : List Bytes :=
  let l := RuneCountInString s.length s
  let n := if n < 0 ∨ n > (l : Int) then l else n.toNat
  if n > 0 then explodeLoop (n - 1) s else []

/-- The loop of `strings.genSplit`: at most `k` cuts at `sep`, then the remainder. -/
def splitLoop (sep : Bytes) : Nat → Bytes → List Bytes
  | 0, s => [s]
  | k + 1, s =>
    match Index s sep with
    | none => [s]
    | some m => s.take m :: splitLoop sep k (s.drop (m + sep.length))

/-- The function `strings.SplitN(s, sep, n)` (`genSplit` with `sepSave = 0`): `n = 0` gives
`nil`, an empty `sep` explodes `s` into runes, `n < 0` splits at every occurrence, `n > 0`
returns at most `n` fields, the last one being the unsplit remainder. -/
def SplitN (s sep : Bytes) (n : Int) : List Bytes :=
  if n = 0 then []
  else if sep.length = 0 then explode s n
  else
    let n : Nat := if n < 0 then Count (s.length + 1) s sep + 1 else n.toNat
    let n : Nat := if n > s.length + 1 then s.length + 1 else n
    splitLoop sep (n - 1) s

/-! ## The program: `cmd/inetdata-csv2mtbl/main.go` -/

/-- The function `mergeFunc`: `[]byte(string(val0) + " " + string(val1))`. -/
def mergeFunc (_key : Bytes) (val0 : Bytes) (val1 : Bytes) : Bytes :=
  (val0 ++ ascii " ") ++ val1

/-- The command-line configuration after `flag.Parse()`. -/
structure Config where
  /-- Flag `-k`. -/
  indexKey : Int
  /-- Flag `-v`. -/
  indexVal : Int
  /-- Flag `-r`. -/
  reverseKey : Bool
  /-- Flag `-M`. -/
  maxFields : Int
  /-- Flag `-c`. -/
  compression : Bytes
  /-- Flag `-d`. -/
  delimiter : Bytes
  /-- Flag `-S`. -/
  sortSkip : Bool
  /-- Flag `-version`. -/
  version : Bool
  /-- The positional arguments `flag.Args()`. -/
  args : List Bytes

/-- The members of the imported package `inetdata` that `main` uses. Their declarations are
outside the program file, so the model takes them as parameters. -/
structure Inetdata where
  /-- The function `inetdata.ReverseKey`. -/
  ReverseKey : Bytes → Bytes
  /-- The constant `inetdata.MTBL_KEY_LIMIT`. -/
  MTBL_KEY_LIMIT : Nat
  /-- The constant `inetdata.MTBL_VAL_LIMIT`. -/
  MTBL_VAL_LIMIT : Nat
  /-- The map `inetdata.MTBLCompressionTypes`, as its lookup function. -/
  MTBLCompressionTypes : Bytes → Option Int

/-- What the process does to the outside, in order. -/
inductive Event where
  /-- The call `inetdata.PrintVersion`. -/
  | printVersion
  /-- The call `usage()`. -/
  | usage
  /-- A write to `os.Stderr`. -/
  | stderr (msg : Bytes)
  /-- A write to `os.Stdout`. -/
  | stdout (msg : Bytes)
  /-- The call `mtbl.SorterInit`. -/
  | sorterInit
  /-- The call `mtbl.WriterInit(fname, &WriterOptions{Compression: compAlg})`. -/
  | writerInit (fname : Bytes) (compAlg : Int)
  /-- The call `s.Add(key, val)`. -/
  | sorterAdd (key val : Bytes)
  /-- The call `w.Add(key, val)`. -/
  | writerAdd (key val : Bytes)
  /-- The call `s.Write(w)`. -/
  | sorterWrite
  /-- The call `s.Destroy()`. -/
  | sorterDestroy
  /-- The call `w.Destroy()`. -/
  | writerDestroy
  deriving DecidableEq

/-- How one pass through the body of the read loop ends, up to the size check. -/
inductive Step where
  /-- A `continue` that wrote nothing. -/
  | skip
  /-- A `continue` after one diagnostic. -/
  | diag (ev : Event)
  /-- The line passed every check: this key and value go to `Add`. -/
  | pair (key val : Bytes)
  /-- An index expression out of range: a run-time panic. -/
  | panic
  deriving DecidableEq

/-- The Go index expression `bits[i]`: `none` is the run-time panic for an index out of
range. -/
def index (bits : List Bytes) (i : Int) : Option Bytes :=
  if i < 0 then none else bits.get? i.toNat

/-- The message of line 102. -/
def noKeyMsg (raw : Bytes) : Bytes := ascii "No key: " ++ raw ++ ascii "\n"

/-- The message of line 107. -/
def noValueMsg (raw : Bytes) : Bytes := ascii "No value: " ++ raw ++ ascii "\n"

/-- The message of line 126. -/
def longMsg : Bytes := ascii "Failed to add entry with long key or value\n"

/-- The message of lines 132 and 136. -/
def addFailedMsg (kstr vstr e : Bytes) : Bytes :=
  ascii "Failed to add " ++ kstr ++ ascii " -> " ++ vstr ++ ascii ": " ++ e ++ ascii "\n"

/-- Lines 94 to 128 of `main`: the body of the read loop applied to `scanner.Text()`, up to the
decision whether a pair is handed to `Add`. -/
def lineStep (pkg : Inetdata) (cfg : Config) (text : Bytes) : Step :=
  let raw := TrimSpace text
  if raw.length = 0 then .skip
  else
    let bits := SplitN raw cfg.delimiter cfg.maxFields
    if (bits.length : Int) < cfg.indexKey then .diag (.stderr (noKeyMsg raw))
    else if (bits.length : Int) < cfg.indexVal then .diag (.stderr (noValueMsg raw))
    else
      match index bits (cfg.indexKey - 1) with
      | none => .panic
      | some kstr =>
        if kstr.length = 0 then .skip
        else
          match index bits (cfg.indexVal - 1) with
          | none => .panic
          | some vstr =>
            if vstr.length = 0 then .skip
            else
              let kstr := if cfg.reverseKey then pkg.ReverseKey kstr else kstr
              if kstr.length > pkg.MTBL_KEY_LIMIT ∨ vstr.length > pkg.MTBL_VAL_LIMIT then
                .diag (.stdout longMsg)
              else .pair kstr vstr

/-- Lines 130 to 138 of `main`: the `Add` call for an accepted pair; `addErr` is the error the
call returns (`none` for `nil`). -/
def addEvents (cfg : Config) (addErr : Option Bytes) (kstr vstr : Bytes) : List Event :=
  (if cfg.sortSkip then Event.writerAdd kstr vstr else Event.sorterAdd kstr vstr) ::
    (match addErr with
     | none => []
     | some e => [Event.stdout (addFailedMsg kstr vstr e)])

/-- One pass through the body of the read loop (lines 93 to 138): the events it produces, and
whether the loop goes on (`false`: the pass ended in a panic). -/
def iteration (pkg : Inetdata) (cfg : Config) (addErr : Option Bytes) (text : Bytes) :
    List Event × Bool :=
  match lineStep pkg cfg text with
  | .skip => ([], true)
  | .diag ev => ([ev], true)
  | .pair kstr vstr => (addEvents cfg addErr kstr vstr, true)
  | .panic => ([], false)

/-- The read loop `for scanner.Scan() { ... }` (lines 92 to 139) over the lines the scanner
delivers; `addErr n` is what the `Add` call made for line `n` returns. The result is the events
of the loop and whether it ran to the end of the lines. -/
def readLoop (pkg : Inetdata) (cfg : Config) (addErr : Nat → Option Bytes) :
    Nat → List Bytes → List Event × Bool
  | _, [] => ([], true)
  | n, text :: rest =>
    match iteration pkg cfg (addErr n) text with
    | (evs, false) => (evs, false)
    | (evs, true) =>
      let r := readLoop pkg cfg addErr (n + 1) rest
      (evs ++ r.1, r.2)

/-- What the surroundings of one run supply: the input the scanner delivers and the results of
the calls into the `mtbl` binding. -/
structure World where
  /-- The lines `scanner.Text()` returns, one for each successful `scanner.Scan()`. -/
  lines : List Bytes
  /-- The value of `scanner.Err()` once `Scan` has returned false (`none` for `nil`). -/
  scanErr : Option Bytes
  /-- The error `mtbl.WriterInit` returns. -/
  writerInitErr : Option Bytes
  /-- The error the `Add` call made for line `n` (counted from 0) returns. -/
  addErr : Nat → Option Bytes
  /-- The error `s.Write(w)` returns. -/
  sorterWriteErr : Option Bytes

/-- One run of the process: its trace and its exit status. -/
structure Run where
  /-- The events in the order they happen. -/
  trace : List Event
  /-- The exit status of the process. -/
  exit : Nat
  deriving DecidableEq

/-- The deferred calls of `main`, in the order Go runs them on return (last deferred first). -/
def deferred : List Event := [.writerDestroy, .sorterDestroy]

/-- The decimal digits of the `uint` line counter, as `%d` prints it. -/
def decimal (n : Nat) : Bytes := (Nat.toDigits 10 n).map (fun c => Fin.ofNat c.toNat)

/-- The message of line 142; `cline` starts at 1 and is incremented once for every line. -/
def readErrMsg (linesRead : Nat) (err : Bytes) : Bytes :=
  ascii "Error while processing line " ++ decimal ((1 + linesRead) % 2 ^ 64) ++ ascii " : "
    ++ err ++ ascii "\n"

/-- The message of lines 80 and 148. -/
def errorMsg (e : Bytes) : Bytes := ascii "Error: " ++ e ++ ascii "\n"

/-- The message of line 69. -/
def invalidCompressionMsg (name : Bytes) : Bytes :=
  ascii "Invalid compression algorithm: " ++ name ++ ascii "\n"

/-- The function `main` from line 49 on. `os.Exit` ends the process at once, without running
the deferred calls; a return from `main` runs them and ends with status 0; a panic runs them
and ends with status 2. -/
def main (pkg : Inetdata) (cfg : Config) (w : World) : Run :=
  if cfg.version then ⟨[.printVersion], 0⟩
  else
    match cfg.args with
    | [fname] =>
      match pkg.MTBLCompressionTypes cfg.compression with
      | none => ⟨[.stderr (invalidCompressionMsg cfg.compression)], 1⟩
      | some compAlg =>
        let init : List Event := [.sorterInit, .writerInit fname compAlg]
        match w.writerInitErr with
        | some we => ⟨init ++ [.stderr (errorMsg we)], 1⟩
        | none =>
          match readLoop pkg cfg w.addErr 0 w.lines with
          | (evs, false) => ⟨init ++ evs ++ deferred, 2⟩
          | (evs, true) =>
            match w.scanErr with
            | some err => ⟨init ++ evs ++ [.stderr (readErrMsg w.lines.length err)], 1⟩
            | none =>
              if !cfg.sortSkip then
                match w.sorterWriteErr with
                | some e => ⟨init ++ evs ++ [.sorterWrite, .stderr (errorMsg e)], 1⟩
                | none => ⟨init ++ evs ++ [.sorterWrite] ++ deferred, 0⟩
              else ⟨init ++ evs ++ deferred, 0⟩
    | _ => ⟨[.usage], 1⟩

/-! ## Definitions used to state the properties -/

/-- The pairs passed to `Sorter.Add`, in order. -/
def sorterAdds : List Event → List (Bytes × Bytes)
  | [] => []
  | .sorterAdd k v :: evs => (k, v) :: sorterAdds evs
  | _ :: evs => sorterAdds evs

/-- The pairs passed to `Writer.Add`, in order. -/
def writerAdds : List Event → List (Bytes × Bytes)
  | [] => []
  | .writerAdd k v :: evs => (k, v) :: writerAdds evs
  | _ :: evs => writerAdds evs

/-- The pairs passed to either `Add`, in order. -/
def addedPairs : List Event → List (Bytes × Bytes)
  | [] => []
  | .sorterAdd k v :: evs => (k, v) :: addedPairs evs
  | .writerAdd k v :: evs => (k, v) :: addedPairs evs
  | _ :: evs => addedPairs evs

/-- The pairs of the lines that pass every check of the loop body, in input order. -/
def accepted (pkg : Inetdata) (cfg : Config) : List Bytes → List (Bytes × Bytes)
  | [] => []
  | text :: rest =>
    match lineStep pkg cfg text with
    | .pair k v => (k, v) :: accepted pkg cfg rest
    | _ => accepted pkg cfg rest

/-- The key as it reaches the size check: reversed when `-r` is set. -/
def keyOf (pkg : Inetdata) (cfg : Config) (fk : Bytes) : Bytes :=
  if cfg.reverseKey then pkg.ReverseKey fk else fk

/-- The checks (1) to (4) of the loop body hold on the line `text` and select the pair
`(key, val)`. -/
def Accepts (pkg : Inetdata) (cfg : Config) (text key val : Bytes) : Prop :=
  ∃ fk fv,
    TrimSpace text ≠ [] ∧
    cfg.indexKey ≤ ((SplitN (TrimSpace text) cfg.delimiter cfg.maxFields).length : Int) ∧
    cfg.indexVal ≤ ((SplitN (TrimSpace text) cfg.delimiter cfg.maxFields).length : Int) ∧
    (SplitN (TrimSpace text) cfg.delimiter cfg.maxFields).get? (cfg.indexKey - 1).toNat
      = some fk ∧
    (SplitN (TrimSpace text) cfg.delimiter cfg.maxFields).get? (cfg.indexVal - 1).toNat
      = some fv ∧
    fk ≠ [] ∧ fv ≠ [] ∧
    key = (if cfg.reverseKey then pkg.ReverseKey fk else fk) ∧ val = fv ∧
    key.length ≤ pkg.MTBL_KEY_LIMIT ∧ val.length ≤ pkg.MTBL_VAL_LIMIT

/-- One way of bracketing the pairwise merges of a sequence of values, kept in order. -/
inductive Bracketing where
  /-- A single value. -/
  | leaf (v : Bytes)
  /-- The merge of the results of two adjacent groups. -/
  | node (l r : Bracketing)

/-- The values of a bracketing, from left to right. -/
def Bracketing.values : Bracketing → List Bytes
  | .leaf v => [v]
  | .node l r => l.values ++ r.values

/-- The value the bracketing's applications of `mergeFunc` produce. -/
def Bracketing.merged (key : Bytes) : Bracketing → Bytes
  | .leaf v => v
  | .node l r => mergeFunc key (l.merged key) (r.merged key)

/-- The values written one after the other with one space byte between neighbours. -/
def joinSpace : List Bytes → Bytes
  | [] => []
  | [v] => v
  | v :: w :: rest => v ++ (0x20 : Byte) :: joinSpace (w :: rest)

/-- The position at which value number `i` starts in `joinSpace vs`. -/
def offset (vs : List Bytes) (i : Nat) : Nat := ((vs.take i).map (fun v => v.length + 1)).sum

/-- The dot-delimited components of a key. -/
def components : Bytes → List Bytes
  | [] => [[]]
  | c :: t =>
    if c = 0x2E then [] :: components t
    else
      match components t with
      | [] => [[c]]
      | h :: r => (c :: h) :: r

/-- The components written one after the other with a dot between neighbours. -/
def joinDots : List Bytes → Bytes
  | [] => []
  | [x] => x
  | x :: y :: r => x ++ (0x2E : Byte) :: joinDots (y :: r)

/-- Modelled from the spec: the members of package `inetdata`, which are declared outside
`main.go`. `ReverseKey` reverses the order of the dot-delimited components of the key (`a.b.c`
becomes `c.b.a`); the compression table holds `none`, `snappy`, `zlib`, `lz4` and `lz4hc`,
numbered in that order; the spec names no size limits, this instance takes 16 bytes for the key
and 32 for the value. It serves to evaluate the model on concrete inputs. -/
def specPkg : Inetdata where
  ReverseKey := fun k => joinDots (components k).reverse
  MTBL_KEY_LIMIT := 16
  MTBL_VAL_LIMIT := 32
  MTBLCompressionTypes := fun name =>
    if name = ascii "none" then some 0
    else if name = ascii "snappy" then some 1
    else if name = ascii "zlib" then some 2
    else if name = ascii "lz4" then some 3
    else if name = ascii "lz4hc" then some 4
    else none

/-- The default flag values of `main`, with one positional argument `out.mtbl`. -/
def defaultCfg : Config where
  indexKey := 1
  indexVal := 2
  reverseKey := false
  maxFields := -1
  compression := ascii "snappy"
  delimiter := ascii ","
  sortSkip := false
  version := false
  args := [ascii "out.mtbl"]

/-- A world in which every call succeeds and the input is the given lines. -/
def quietWorld (lines : List Bytes) : World where
  lines := lines
  scanErr := none
  writerInitErr := none
  addErr := fun _ => none
  sorterWriteErr := none

/-- A world whose input delivers the line `a,1` and then fails with the scanner's
`ErrTooLong`; every call into `mtbl` succeeds. -/
def readErrorWorld : World where
  lines := [ascii "a,1"]
  scanErr := some (ascii "bufio.Scanner: token too long")
  writerInitErr := none
  addErr := fun _ => none
  sorterWriteErr := none

/-- A world whose input is the lines `a,1` and `b,2`, read without error, and in which the
sorter's `Write` returns an error. -/
def writeFailWorld : World where
  lines := [ascii "a,1", ascii "b,2"]
  scanErr := none
  writerInitErr := none
  addErr := fun _ => none
  sorterWriteErr := some (ascii "mtbl_sorter_write failed")

/-- A world whose input is the lines `a,1`, `onlyonefield`, an over-long key and `b,` and in
which the `Add` call for the first line returns an error; everything else succeeds. -/
def dirtyWorld : World where
  lines := [ascii "a,1", ascii "onlyonefield", ascii "aaaaaaaaaaaaaaaaaaaaaaaa,1", ascii "b,"]
  scanErr := none
  writerInitErr := none
  addErr := fun n => if n = 0 then some (ascii "add failed") else none
  sorterWriteErr := none

/-! ## Auxiliary lemmas -/

theorem ascii_space : ascii " " = [(0x20 : Byte)] := by decide

theorem index_pred (bits : List Bytes) (k : Int) (hk : 1 ≤ k) :
    index bits (k - 1) = bits.get? (k - 1).toNat := by
  unfold index
  rw [if_neg (by omega)]

theorem get?_pred_of_le (bits : List Bytes) (k : Int) (hk : 1 ≤ k)
    (h : ¬ (bits.length : Int) < k) : ∃ f, bits.get? (k - 1).toNat = some f := by
  have hlt : (k - 1).toNat < bits.length := by omega
  exact ⟨bits.get ⟨_, hlt⟩, List.get?_eq_get hlt⟩

/-- Every way the loop body can end when both indices are at least 1. -/
theorem lineStep_cases (pkg : Inetdata) (cfg : Config) (text : Bytes)
    (hk : 1 ≤ cfg.indexKey) (hv : 1 ≤ cfg.indexVal) :
    (TrimSpace text = [] ∧ lineStep pkg cfg text = .skip) ∨
    (TrimSpace text ≠ [] ∧
      ((SplitN (TrimSpace text) cfg.delimiter cfg.maxFields).length : Int) < cfg.indexKey ∧
      lineStep pkg cfg text = .diag (.stderr (noKeyMsg (TrimSpace text)))) ∨
    (TrimSpace text ≠ [] ∧
      ¬ ((SplitN (TrimSpace text) cfg.delimiter cfg.maxFields).length : Int) < cfg.indexKey ∧
      ((SplitN (TrimSpace text) cfg.delimiter cfg.maxFields).length : Int) < cfg.indexVal ∧
      lineStep pkg cfg text = .diag (.stderr (noValueMsg (TrimSpace text)))) ∨
    (TrimSpace text ≠ [] ∧
      ¬ ((SplitN (TrimSpace text) cfg.delimiter cfg.maxFields).length : Int) < cfg.indexKey ∧
      ¬ ((SplitN (TrimSpace text) cfg.delimiter cfg.maxFields).length : Int) < cfg.indexVal ∧
      ∃ fk fv,
        (SplitN (TrimSpace text) cfg.delimiter cfg.maxFields).get? (cfg.indexKey - 1).toNat
          = some fk ∧
        (SplitN (TrimSpace text) cfg.delimiter cfg.maxFields).get? (cfg.indexVal - 1).toNat
          = some fv ∧
        (((fk = [] ∨ fv = []) ∧ lineStep pkg cfg text = .skip) ∨
         (fk ≠ [] ∧ fv ≠ [] ∧
           ((keyOf pkg cfg fk).length > pkg.MTBL_KEY_LIMIT ∨ fv.length > pkg.MTBL_VAL_LIMIT) ∧
           lineStep pkg cfg text = .diag (.stdout longMsg)) ∨
         (fk ≠ [] ∧ fv ≠ [] ∧
           (keyOf pkg cfg fk).length ≤ pkg.MTBL_KEY_LIMIT ∧ fv.length ≤ pkg.MTBL_VAL_LIMIT ∧
           lineStep pkg cfg text = .pair (keyOf pkg cfg fk) fv))) := by
  unfold lineStep
  simp only []
  by_cases hraw : TrimSpace text = []
  · left
    simp [hraw]
  · right
    have hlen : ¬ (TrimSpace text).length = 0 := by
      intro h
      exact hraw (List.length_eq_zero.mp h)
    rw [if_neg hlen]
    by_cases h1 : ((SplitN (TrimSpace text) cfg.delimiter cfg.maxFields).length : Int)
        < cfg.indexKey
    · left
      exact ⟨hraw, h1, by rw [if_pos h1]⟩
    · right
      rw [if_neg h1]
      by_cases h2 : ((SplitN (TrimSpace text) cfg.delimiter cfg.maxFields).length : Int)
          < cfg.indexVal
      · left
        exact ⟨hraw, h1, h2, by rw [if_pos h2]⟩
      · right
        rw [if_neg h2]
        obtain ⟨fk, hfk⟩ := get?_pred_of_le _ _ hk h1
        obtain ⟨fv, hfv⟩ := get?_pred_of_le _ _ hv h2
        refine ⟨hraw, h1, h2, fk, fv, hfk, hfv, ?_⟩
        rw [index_pred _ _ hk, index_pred _ _ hv, hfk, hfv]
        simp only []
        by_cases hke : fk = []
        · left
          exact ⟨Or.inl hke, by simp [hke]⟩
        · have hkl : ¬ fk.length = 0 := fun h => hke (List.length_eq_zero.mp h)
          rw [if_neg hkl]
          by_cases hve : fv = []
          · left
            exact ⟨Or.inr hve, by simp [hve]⟩
          · have hvl : ¬ fv.length = 0 := fun h => hve (List.length_eq_zero.mp h)
            rw [if_neg hvl]
            right
            by_cases hlong : (keyOf pkg cfg fk).length > pkg.MTBL_KEY_LIMIT ∨
                fv.length > pkg.MTBL_VAL_LIMIT
            · left
              refine ⟨hke, hve, hlong, ?_⟩
              unfold keyOf at hlong
              rw [if_pos hlong]
            · right
              have hfit := hlong
              rw [not_or] at hfit
              refine ⟨hke, hve, by omega, by omega, ?_⟩
              unfold keyOf at hlong ⊢
              rw [if_neg hlong]

/-- With both indices at least 1 the loop body never ends in a panic. -/
theorem lineStep_ne_panic (pkg : Inetdata) (cfg : Config) (text : Bytes)
    (hk : 1 ≤ cfg.indexKey) (hv : 1 ≤ cfg.indexVal) : lineStep pkg cfg text ≠ .panic := by
  rcases lineStep_cases pkg cfg text hk hv with h | h | h | ⟨_, _, _, fk, fv, _, _, h | h | h⟩
  · rw [h.2]; simp
  · rw [h.2.2]; simp
  · rw [h.2.2.2]; simp
  · rw [h.2]; simp
  · rw [h.2.2.2]; simp
  · rw [h.2.2.2.2]; simp

theorem iteration_snd (pkg : Inetdata) (cfg : Config) (addErr : Option Bytes) (text : Bytes)
    (hk : 1 ≤ cfg.indexKey) (hv : 1 ≤ cfg.indexVal) :
    (iteration pkg cfg addErr text).2 = true := by
  have h := lineStep_ne_panic pkg cfg text hk hv
  unfold iteration
  cases hs : lineStep pkg cfg text <;> simp_all

theorem readLoop_cons (pkg : Inetdata) (cfg : Config) (addErr : Nat → Option Bytes) (n : Nat)
    (text : Bytes) (rest : List Bytes) (h : (iteration pkg cfg (addErr n) text).2 = true) :
    readLoop pkg cfg addErr n (text :: rest) =
      ((iteration pkg cfg (addErr n) text).1 ++ (readLoop pkg cfg addErr (n + 1) rest).1,
        (readLoop pkg cfg addErr (n + 1) rest).2) := by
  rw [readLoop]
  cases hi : iteration pkg cfg (addErr n) text with
  | mk evs b =>
    rw [hi] at h
    simp only at h
    subst h
    rfl

theorem readLoop_snd (pkg : Inetdata) (cfg : Config) (addErr : Nat → Option Bytes)
    (hk : 1 ≤ cfg.indexKey) (hv : 1 ≤ cfg.indexVal) (lines : List Bytes) :
    ∀ n, (readLoop pkg cfg addErr n lines).2 = true := by
  induction lines with
  | nil => intro n; rfl
  | cons text rest ih =>
    intro n
    rw [readLoop_cons pkg cfg addErr n text rest (iteration_snd pkg cfg _ text hk hv)]
    exact ih (n + 1)

theorem iteration_skip (pkg : Inetdata) (cfg : Config) (addErr : Option Bytes) (text : Bytes)
    (h : lineStep pkg cfg text = .skip) : iteration pkg cfg addErr text = ([], true) := by
  unfold iteration
  rw [h]

theorem iteration_diag (pkg : Inetdata) (cfg : Config) (addErr : Option Bytes) (text : Bytes)
    (ev : Event) (h : lineStep pkg cfg text = .diag ev) :
    iteration pkg cfg addErr text = ([ev], true) := by
  unfold iteration
  rw [h]

theorem iteration_pair (pkg : Inetdata) (cfg : Config) (addErr : Option Bytes) (text : Bytes)
    (k v : Bytes) (h : lineStep pkg cfg text = .pair k v) :
    iteration pkg cfg addErr text = (addEvents cfg addErr k v, true) := by
  unfold iteration
  rw [h]

theorem addedPairs_addEvents (cfg : Config) (addErr : Option Bytes) (k v : Bytes) :
    addedPairs (addEvents cfg addErr k v) = [(k, v)] := by
  unfold addEvents
  cases cfg.sortSkip <;> cases addErr <;> simp [addedPairs]

theorem sorterAdds_addEvents (cfg : Config) (addErr : Option Bytes) (k v : Bytes) :
    sorterAdds (addEvents cfg addErr k v) = if cfg.sortSkip then [] else [(k, v)] := by
  unfold addEvents
  cases cfg.sortSkip <;> cases addErr <;> simp [sorterAdds]

theorem writerAdds_addEvents (cfg : Config) (addErr : Option Bytes) (k v : Bytes) :
    writerAdds (addEvents cfg addErr k v) = if cfg.sortSkip then [(k, v)] else [] := by
  unfold addEvents
  cases cfg.sortSkip <;> cases addErr <;> simp [writerAdds]

theorem sorterWrite_not_mem_addEvents (cfg : Config) (addErr : Option Bytes) (k v : Bytes) :
    Event.sorterWrite ∉ addEvents cfg addErr k v := by
  unfold addEvents
  cases cfg.sortSkip <;> cases addErr <;> simp

theorem addedPairs_append (xs ys : List Event) :
    addedPairs (xs ++ ys) = addedPairs xs ++ addedPairs ys := by
  induction xs with
  | nil => rfl
  | cons e xs ih => cases e <;> simp [addedPairs, ih]

theorem sorterAdds_append (xs ys : List Event) :
    sorterAdds (xs ++ ys) = sorterAdds xs ++ sorterAdds ys := by
  induction xs with
  | nil => rfl
  | cons e xs ih => cases e <;> simp [sorterAdds, ih]

theorem writerAdds_append (xs ys : List Event) :
    writerAdds (xs ++ ys) = writerAdds xs ++ writerAdds ys := by
  induction xs with
  | nil => rfl
  | cons e xs ih => cases e <;> simp [writerAdds, ih]

theorem index_some_nonneg (bits : List Bytes) (i : Int) (x : Bytes)
    (h : index bits i = some x) : 0 ≤ i := by
  unfold index at h
  by_contra hneg
  rw [if_pos (by omega)] at h
  simp at h

/-- The shape of what the loop body returns: a line is accepted only under indices that are both
at least 1, and a diagnostic is a write to a standard stream. -/
theorem lineStep_shape (pkg : Inetdata) (cfg : Config) (text : Bytes) :
    match lineStep pkg cfg text with
    | .pair _ _ => 1 ≤ cfg.indexKey ∧ 1 ≤ cfg.indexVal
    | .diag ev => (∃ m, ev = .stderr m) ∨ (∃ m, ev = .stdout m)
    | _ => True := by
  unfold lineStep
  simp only []
  by_cases h0 : (TrimSpace text).length = 0
  · rw [if_pos h0]
    trivial
  rw [if_neg h0]
  by_cases h1 : ((SplitN (TrimSpace text) cfg.delimiter cfg.maxFields).length : Int)
      < cfg.indexKey
  · rw [if_pos h1]
    exact Or.inl ⟨_, rfl⟩
  rw [if_neg h1]
  by_cases h2 : ((SplitN (TrimSpace text) cfg.delimiter cfg.maxFields).length : Int)
      < cfg.indexVal
  · rw [if_pos h2]
    exact Or.inl ⟨_, rfl⟩
  rw [if_neg h2]
  cases hk : index (SplitN (TrimSpace text) cfg.delimiter cfg.maxFields) (cfg.indexKey - 1)
    with
  | none => trivial
  | some kstr =>
    have hk1 := index_some_nonneg _ _ _ hk
    simp only []
    by_cases h3 : kstr.length = 0
    · rw [if_pos h3]
      trivial
    rw [if_neg h3]
    cases hv : index (SplitN (TrimSpace text) cfg.delimiter cfg.maxFields) (cfg.indexVal - 1)
      with
    | none => trivial
    | some vstr =>
      have hv1 := index_some_nonneg _ _ _ hv
      simp only []
      by_cases h4 : vstr.length = 0
      · rw [if_pos h4]
        trivial
      rw [if_neg h4]
      by_cases h5 : (if cfg.reverseKey then pkg.ReverseKey kstr else kstr).length
          > pkg.MTBL_KEY_LIMIT ∨ vstr.length > pkg.MTBL_VAL_LIMIT
      · rw [if_pos h5]
        exact Or.inr ⟨_, rfl⟩
      · rw [if_neg h5]
        exact ⟨by omega, by omega⟩

/-- A line is accepted only under indices that are both at least 1. -/
theorem lineStep_pair_index (pkg : Inetdata) (cfg : Config) (text k v : Bytes)
    (h : lineStep pkg cfg text = .pair k v) : 1 ≤ cfg.indexKey ∧ 1 ≤ cfg.indexVal := by
  have hs := lineStep_shape pkg cfg text
  rw [h] at hs
  exact hs

theorem lineStep_pair_iff (pkg : Inetdata) (cfg : Config) (text key val : Bytes)
    (hk : 1 ≤ cfg.indexKey) (hv : 1 ≤ cfg.indexVal) :
    lineStep pkg cfg text = .pair key val ↔ Accepts pkg cfg text key val := by
  unfold Accepts
  rcases lineStep_cases pkg cfg text hk hv with h | h | h | ⟨hraw, h1, h2, fk, fv, hfk, hfv, h⟩
  · rw [h.2]
    constructor
    · intro hc; simp at hc
    · rintro ⟨_, _, hraw, _⟩
      exact absurd h.1 hraw
  · rw [h.2.2]
    constructor
    · intro hc; simp at hc
    · rintro ⟨_, _, _, hle, _⟩
      omega
  · rw [h.2.2.2]
    constructor
    · intro hc; simp at hc
    · rintro ⟨_, _, _, _, hle, _⟩
      omega
  · rcases h with h | h | h
    · rw [h.2]
      constructor
      · intro hc; simp at hc
      · rintro ⟨fk', fv', _, _, _, hfk', hfv', hk0, hv0, _⟩
        rw [hfk] at hfk'
        rw [hfv] at hfv'
        cases hfk'
        cases hfv'
        rcases h.1 with he | he
        · exact absurd he hk0
        · exact absurd he hv0
    · rw [h.2.2.2]
      constructor
      · intro hc; simp at hc
      · rintro ⟨fk', fv', _, _, _, hfk', hfv', _, _, hkey, hval, hkl, hvl⟩
        rw [hfk] at hfk'
        rw [hfv] at hfv'
        cases hfk'
        cases hfv'
        subst hkey
        subst hval
        have := h.2.2.1
        unfold keyOf at this
        omega
    · obtain ⟨hk0, hv0, hkl, hvl, hstep⟩ := h
      rw [hstep]
      constructor
      · intro hc
        injection hc with hc1 hc2
        subst hc1
        subst hc2
        exact ⟨fk, fv, hraw, by omega, by omega, hfk, hfv, hk0, hv0, rfl, rfl, hkl, hvl⟩
      · rintro ⟨fk', fv', _, _, _, hfk', hfv', _, _, hkey, hval, _, _⟩
        rw [hfk] at hfk'
        rw [hfv] at hfv'
        cases hfk'
        cases hfv'
        subst hkey
        subst hval
        rfl

theorem addedPairs_iteration (pkg : Inetdata) (cfg : Config) (addErr : Option Bytes)
    (text : Bytes) :
    addedPairs (iteration pkg cfg addErr text).1 =
      match lineStep pkg cfg text with
      | .pair k v => [(k, v)]
      | _ => [] := by
  have hshape := lineStep_shape pkg cfg text
  unfold iteration
  cases hs : lineStep pkg cfg text with
  | skip => rfl
  | diag ev =>
    rw [hs] at hshape
    rcases hshape with ⟨m, rfl⟩ | ⟨m, rfl⟩ <;> rfl
  | pair k v => exact addedPairs_addEvents cfg addErr k v
  | panic => rfl

/-- The events of one pass: the `Add` events of an accepted pair, or at most one write to a
standard stream. -/
theorem iteration_events (pkg : Inetdata) (cfg : Config) (addErr : Option Bytes)
    (text : Bytes) :
    (∃ k v, lineStep pkg cfg text = .pair k v ∧
      iteration pkg cfg addErr text = (addEvents cfg addErr k v, true)) ∨
    ((∀ k v, lineStep pkg cfg text ≠ .pair k v) ∧
      ((iteration pkg cfg addErr text).1 = [] ∨
       (∃ m, (iteration pkg cfg addErr text).1 = [Event.stderr m]) ∨
       (∃ m, (iteration pkg cfg addErr text).1 = [Event.stdout m]))) := by
  have hshape := lineStep_shape pkg cfg text
  unfold iteration
  cases hs : lineStep pkg cfg text with
  | skip => exact Or.inr ⟨by simp, Or.inl rfl⟩
  | diag ev =>
    rw [hs] at hshape
    rcases hshape with ⟨m, rfl⟩ | ⟨m, rfl⟩
    · exact Or.inr ⟨by simp, Or.inr (Or.inl ⟨m, rfl⟩)⟩
    · exact Or.inr ⟨by simp, Or.inr (Or.inr ⟨m, rfl⟩)⟩
  | pair k v => exact Or.inl ⟨k, v, rfl, rfl⟩
  | panic => exact Or.inr ⟨by simp, Or.inl rfl⟩

theorem accepted_cons_pair (pkg : Inetdata) (cfg : Config) (text : Bytes) (rest : List Bytes)
    (k v : Bytes) (h : lineStep pkg cfg text = .pair k v) :
    accepted pkg cfg (text :: rest) = (k, v) :: accepted pkg cfg rest := by
  rw [accepted, h]

theorem accepted_cons_other (pkg : Inetdata) (cfg : Config) (text : Bytes) (rest : List Bytes)
    (h : ∀ k v, lineStep pkg cfg text ≠ .pair k v) :
    accepted pkg cfg (text :: rest) = accepted pkg cfg rest := by
  rw [accepted]
  cases hs : lineStep pkg cfg text with
  | pair k v => exact absurd hs (h k v)
  | _ => rfl

/-- Under an index below 1 no line is accepted. -/
theorem accepted_eq_nil (pkg : Inetdata) (cfg : Config)
    (hidx : ¬ (1 ≤ cfg.indexKey ∧ 1 ≤ cfg.indexVal)) (lines : List Bytes) :
    accepted pkg cfg lines = [] := by
  induction lines with
  | nil => rfl
  | cons text rest ih =>
    rw [accepted_cons_other pkg cfg text rest, ih]
    intro k v h
    exact hidx (lineStep_pair_index pkg cfg text k v h)

theorem readLoop_unfold (pkg : Inetdata) (cfg : Config) (addErr : Nat → Option Bytes) (n : Nat)
    (text : Bytes) (rest : List Bytes) :
    readLoop pkg cfg addErr n (text :: rest) =
      if (iteration pkg cfg (addErr n) text).2 = true then
        ((iteration pkg cfg (addErr n) text).1 ++ (readLoop pkg cfg addErr (n + 1) rest).1,
          (readLoop pkg cfg addErr (n + 1) rest).2)
      else ((iteration pkg cfg (addErr n) text).1, false) := by
  rw [readLoop]
  cases hi : iteration pkg cfg (addErr n) text with
  | mk evs b => cases b <;> simp

/-- The events of the read loop hold no drain of the sorter. -/
theorem sorterWrite_not_mem_readLoop (pkg : Inetdata) (cfg : Config)
    (addErr : Nat → Option Bytes) (lines : List Bytes) :
    ∀ n, Event.sorterWrite ∉ (readLoop pkg cfg addErr n lines).1 := by
  induction lines with
  | nil => intro n; simp [readLoop]
  | cons text rest ih =>
    intro n
    have hit : Event.sorterWrite ∉ (iteration pkg cfg (addErr n) text).1 := by
      rcases iteration_events pkg cfg (addErr n) text with
        ⟨k, v, _, he⟩ | ⟨_, he | ⟨m, he⟩ | ⟨m, he⟩⟩
      · rw [he]
        exact sorterWrite_not_mem_addEvents cfg _ k v
      · rw [he]; simp
      · rw [he]; simp
      · rw [he]; simp
    rw [readLoop_unfold]
    split_ifs
    · simp only [List.mem_append, not_or]
      exact ⟨hit, ih (n + 1)⟩
    · exact hit

/-- The pairs the read loop passes to `Sorter.Add` are the accepted pairs, in input order, when
`-S` is off, and none when it is on. -/
theorem sorterAdds_readLoop (pkg : Inetdata) (cfg : Config) (addErr : Nat → Option Bytes)
    (lines : List Bytes) :
    ∀ n, sorterAdds (readLoop pkg cfg addErr n lines).1 =
      if cfg.sortSkip then [] else accepted pkg cfg lines := by
  by_cases hidx : 1 ≤ cfg.indexKey ∧ 1 ≤ cfg.indexVal
  · induction lines with
    | nil => intro n; simp [readLoop, sorterAdds, accepted]
    | cons text rest ih =>
      intro n
      rw [readLoop_cons pkg cfg addErr n text rest
        (iteration_snd pkg cfg _ text hidx.1 hidx.2)]
      simp only [sorterAdds_append, ih (n + 1)]
      rcases iteration_events pkg cfg (addErr n) text with
        ⟨k, v, hs, he⟩ | ⟨hs, he | ⟨m, he⟩ | ⟨m, he⟩⟩
      · rw [he, accepted_cons_pair pkg cfg text rest k v hs, sorterAdds_addEvents]
        cases cfg.sortSkip <;> simp
      · rw [he, accepted_cons_other pkg cfg text rest hs]
        simp [sorterAdds]
      · rw [he, accepted_cons_other pkg cfg text rest hs]
        simp [sorterAdds]
      · rw [he, accepted_cons_other pkg cfg text rest hs]
        simp [sorterAdds]
  · intro n
    rw [accepted_eq_nil pkg cfg hidx]
    simp only [ite_self]
    induction lines generalizing n with
    | nil => simp [readLoop, sorterAdds]
    | cons text rest ih =>
      have hit : sorterAdds (iteration pkg cfg (addErr n) text).1 = [] := by
        rcases iteration_events pkg cfg (addErr n) text with
          ⟨k, v, hs, _⟩ | ⟨_, he | ⟨m, he⟩ | ⟨m, he⟩⟩
        · exact absurd (lineStep_pair_index pkg cfg text k v hs) hidx
        · rw [he]; rfl
        · rw [he]; rfl
        · rw [he]; rfl
      rw [readLoop_unfold]
      split_ifs
      · simp only [sorterAdds_append, hit, ih (n + 1), List.append_nil]
      · exact hit

/-- The pairs the read loop passes to `Writer.Add` are the accepted pairs, in input order, when
`-S` is on, and none when it is off. -/
theorem writerAdds_readLoop (pkg : Inetdata) (cfg : Config) (addErr : Nat → Option Bytes)
    (lines : List Bytes) :
    ∀ n, writerAdds (readLoop pkg cfg addErr n lines).1 =
      if cfg.sortSkip then accepted pkg cfg lines else [] := by
  by_cases hidx : 1 ≤ cfg.indexKey ∧ 1 ≤ cfg.indexVal
  · induction lines with
    | nil => intro n; simp [readLoop, writerAdds, accepted]
    | cons text rest ih =>
      intro n
      rw [readLoop_cons pkg cfg addErr n text rest
        (iteration_snd pkg cfg _ text hidx.1 hidx.2)]
      simp only [writerAdds_append, ih (n + 1)]
      rcases iteration_events pkg cfg (addErr n) text with
        ⟨k, v, hs, he⟩ | ⟨hs, he | ⟨m, he⟩ | ⟨m, he⟩⟩
      · rw [he, accepted_cons_pair pkg cfg text rest k v hs, writerAdds_addEvents]
        cases cfg.sortSkip <;> simp
      · rw [he, accepted_cons_other pkg cfg text rest hs]
        simp [writerAdds]
      · rw [he, accepted_cons_other pkg cfg text rest hs]
        simp [writerAdds]
      · rw [he, accepted_cons_other pkg cfg text rest hs]
        simp [writerAdds]
  · intro n
    rw [accepted_eq_nil pkg cfg hidx]
    simp only [ite_self]
    induction lines generalizing n with
    | nil => simp [readLoop, writerAdds]
    | cons text rest ih =>
      have hit : writerAdds (iteration pkg cfg (addErr n) text).1 = [] := by
        rcases iteration_events pkg cfg (addErr n) text with
          ⟨k, v, hs, _⟩ | ⟨_, he | ⟨m, he⟩ | ⟨m, he⟩⟩
        · exact absurd (lineStep_pair_index pkg cfg text k v hs) hidx
        · rw [he]; rfl
        · rw [he]; rfl
        · rw [he]; rfl
      rw [readLoop_unfold]
      split_ifs
      · simp only [writerAdds_append, hit, ih (n + 1), List.append_nil]
      · exact hit

/-- Every pair the read loop passes to an `Add` is within the size limits. -/
theorem addedPairs_readLoop_fit (pkg : Inetdata) (cfg : Config) (addErr : Nat → Option Bytes)
    (lines : List Bytes) :
    ∀ n, ∀ p ∈ addedPairs (readLoop pkg cfg addErr n lines).1,
      p.1.length ≤ pkg.MTBL_KEY_LIMIT ∧ p.2.length ≤ pkg.MTBL_VAL_LIMIT := by
  induction lines with
  | nil => intro n p hp; simp [readLoop, addedPairs] at hp
  | cons text rest ih =>
    intro n p hp
    have hit : ∀ q ∈ addedPairs (iteration pkg cfg (addErr n) text).1,
        q.1.length ≤ pkg.MTBL_KEY_LIMIT ∧ q.2.length ≤ pkg.MTBL_VAL_LIMIT := by
      intro q hq
      rcases iteration_events pkg cfg (addErr n) text with
        ⟨k, v, hs, he⟩ | ⟨_, he | ⟨m, he⟩ | ⟨m, he⟩⟩
      · rw [he, addedPairs_addEvents] at hq
        simp only [List.mem_singleton] at hq
        subst hq
        have hidx := lineStep_pair_index pkg cfg text k v hs
        obtain ⟨_, _, _, _, _, _, _, _, _, _, _, hkl, hvl⟩ :=
          (lineStep_pair_iff pkg cfg text k v hidx.1 hidx.2).mp hs
        exact ⟨hkl, hvl⟩
      · rw [he] at hq; simp [addedPairs] at hq
      · rw [he] at hq; simp [addedPairs] at hq
      · rw [he] at hq; simp [addedPairs] at hq
    rw [readLoop_unfold] at hp
    split_ifs at hp
    · simp only [addedPairs_append, List.mem_append] at hp
      rcases hp with hp | hp
      · exact hit p hp
      · exact ih (n + 1) p hp
    · exact hit p hp

/-- Every way a run can end. -/
theorem main_cases (pkg : Inetdata) (cfg : Config) (w : World) :
    (cfg.version = true ∧ main pkg cfg w = ⟨[.printVersion], 0⟩) ∨
    (cfg.version = false ∧ cfg.args.length ≠ 1 ∧ main pkg cfg w = ⟨[.usage], 1⟩) ∨
    (∃ fname, cfg.version = false ∧ cfg.args = [fname] ∧
      pkg.MTBLCompressionTypes cfg.compression = none ∧
      main pkg cfg w = ⟨[.stderr (invalidCompressionMsg cfg.compression)], 1⟩) ∨
    (∃ fname compAlg, cfg.version = false ∧ cfg.args = [fname] ∧
      pkg.MTBLCompressionTypes cfg.compression = some compAlg ∧
      ((∃ we, w.writerInitErr = some we ∧
          main pkg cfg w =
            ⟨[.sorterInit, .writerInit fname compAlg] ++ [.stderr (errorMsg we)], 1⟩) ∨
       (w.writerInitErr = none ∧ (readLoop pkg cfg w.addErr 0 w.lines).2 = false ∧
          main pkg cfg w =
            ⟨[.sorterInit, .writerInit fname compAlg]
              ++ (readLoop pkg cfg w.addErr 0 w.lines).1 ++ deferred, 2⟩) ∨
       (∃ err, w.writerInitErr = none ∧ (readLoop pkg cfg w.addErr 0 w.lines).2 = true ∧
          w.scanErr = some err ∧
          main pkg cfg w =
            ⟨[.sorterInit, .writerInit fname compAlg]
              ++ (readLoop pkg cfg w.addErr 0 w.lines).1
              ++ [.stderr (readErrMsg w.lines.length err)], 1⟩) ∨
       (w.writerInitErr = none ∧ (readLoop pkg cfg w.addErr 0 w.lines).2 = true ∧
          w.scanErr = none ∧ cfg.sortSkip = true ∧
          main pkg cfg w =
            ⟨[.sorterInit, .writerInit fname compAlg]
              ++ (readLoop pkg cfg w.addErr 0 w.lines).1 ++ deferred, 0⟩) ∨
       (∃ e, w.writerInitErr = none ∧ (readLoop pkg cfg w.addErr 0 w.lines).2 = true ∧
          w.scanErr = none ∧ cfg.sortSkip = false ∧ w.sorterWriteErr = some e ∧
          main pkg cfg w =
            ⟨[.sorterInit, .writerInit fname compAlg]
              ++ (readLoop pkg cfg w.addErr 0 w.lines).1
              ++ [.sorterWrite, .stderr (errorMsg e)], 1⟩) ∨
       (w.writerInitErr = none ∧ (readLoop pkg cfg w.addErr 0 w.lines).2 = true ∧
          w.scanErr = none ∧ cfg.sortSkip = false ∧ w.sorterWriteErr = none ∧
          main pkg cfg w =
            ⟨[.sorterInit, .writerInit fname compAlg]
              ++ (readLoop pkg cfg w.addErr 0 w.lines).1 ++ [.sorterWrite] ++ deferred, 0⟩))) := by
  unfold main
  cases hver : cfg.version with
  | true => left; simp
  | false =>
    right
    simp only [Bool.false_eq_true, if_false]
    cases hargs : cfg.args with
    | nil => left; simp
    | cons fname tl =>
      cases tl with
      | cons a b => left; simp
      | nil =>
        right
        simp only []
        cases hcomp : pkg.MTBLCompressionTypes cfg.compression with
        | none => left; simp
        | some compAlg =>
          right
          refine ⟨fname, compAlg, trivial, rfl, rfl, ?_⟩
          simp only []
          cases hopen : w.writerInitErr with
          | some we => left; simp
          | none =>
            right
            simp only []
            cases hloop : readLoop pkg cfg w.addErr 0 w.lines with
            | mk evs ok =>
              cases ok with
              | false => left; simp
              | true =>
                right
                simp only []
                cases hscan : w.scanErr with
                | some err => left; simp
                | none =>
                  right
                  simp only []
                  cases hskip : cfg.sortSkip with
                  | true => left; simp
                  | false =>
                    right
                    simp only [Bool.not_false, if_true]
                    cases hwrite : w.sorterWriteErr with
                    | some e => left; simp
                    | none => right; simp

/-! ## The merge function -/

theorem mergeFunc_eq (key val0 val1 : Bytes) :
    mergeFunc key val0 val1 = val0 ++ (0x20 : Byte) :: val1 := by
  unfold mergeFunc
  rw [ascii_space]
  simp

theorem values_ne_nil (t : Bracketing) : t.values ≠ [] := by
  induction t with
  | leaf v => simp [Bracketing.values]
  | node l r ihl _ => simp [Bracketing.values, ihl]

theorem joinSpace_cons (v : Bytes) (ys : List Bytes) (hy : ys ≠ []) :
    joinSpace (v :: ys) = v ++ (0x20 : Byte) :: joinSpace ys := by
  cases ys with
  | nil => exact absurd rfl hy
  | cons w rest => rfl

theorem joinSpace_append (xs ys : List Bytes) (hx : xs ≠ []) (hy : ys ≠ []) :
    joinSpace (xs ++ ys) = joinSpace xs ++ (0x20 : Byte) :: joinSpace ys := by
  induction xs with
  | nil => exact absurd rfl hx
  | cons v rest ih =>
    cases rest with
    | nil =>
      simp only [List.singleton_append, joinSpace]
      exact joinSpace_cons v ys hy
    | cons w rest2 =>
      have h1 : joinSpace ((v :: w :: rest2) ++ ys) =
          v ++ (0x20 : Byte) :: joinSpace ((w :: rest2) ++ ys) := by
        simp only [List.cons_append]
        rfl
      rw [h1, ih (by simp)]
      simp [joinSpace]

theorem joinSpace_length (vs : List Bytes) :
    (joinSpace vs).length = (vs.map List.length).sum + (vs.length - 1) := by
  induction vs with
  | nil => rfl
  | cons v rest ih =>
    cases rest with
    | nil => simp [joinSpace]
    | cons w rest2 =>
      rw [joinSpace_cons v (w :: rest2) (by simp)]
      simp only [List.length_append, List.length_cons, ih, List.map_cons, List.sum_cons]
      omega

theorem joinSpace_range (vs : List Bytes) :
    ∀ i, ((joinSpace vs).drop (offset vs i)).take (vs.getD i []).length = vs.getD i [] := by
  induction vs with
  | nil => intro i; simp [joinSpace]
  | cons v rest ih =>
    intro i
    cases i with
    | zero =>
      cases rest with
      | nil => simp [joinSpace, offset]
      | cons w rest2 =>
        rw [joinSpace_cons v (w :: rest2) (by simp)]
        simp [offset]
    | succ j =>
      cases rest with
      | nil => simp
      | cons w rest2 =>
        rw [joinSpace_cons v (w :: rest2) (by simp)]
        have hoff : offset (v :: w :: rest2) (j + 1) = (v.length + 1) + offset (w :: rest2) j := by
          simp [offset]
        have hdrop : (v ++ (0x20 : Byte) :: joinSpace (w :: rest2)).drop
            ((v.length + 1) + offset (w :: rest2) j)
            = (joinSpace (w :: rest2)).drop (offset (w :: rest2) j) := by
          rw [← List.drop_drop]
          congr 1
          rw [show v ++ (0x20 : Byte) :: joinSpace (w :: rest2)
            = (v ++ [(0x20 : Byte)]) ++ joinSpace (w :: rest2) by simp]
          exact List.drop_left' (by simp)
        rw [hoff, hdrop]
        have := ih j
        simpa using this

theorem merged_eq (key : Bytes) (t : Bracketing) : t.merged key = joinSpace t.values := by
  induction t with
  | leaf v => rfl
  | node l r ihl ihr =>
    simp only [Bracketing.merged, Bracketing.values]
    rw [mergeFunc_eq, ihl, ihr, joinSpace_append _ _ (values_ne_nil l) (values_ne_nil r)]

/-- C2: for every key and every two values, `mergeFunc key val0 val1` is the bytes of `val0`,
then one space byte (0x20), then the bytes of `val1`; the result is the same for every key and
its length is `len(val0) + len(val1) + 1`. -/
theorem mergeFunc_concat (key val0 val1 : Bytes) :
    mergeFunc key val0 val1 = val0 ++ (0x20 : Byte) :: val1 ∧
    (∀ key2 : Bytes, mergeFunc key2 val0 val1 = mergeFunc key val0 val1) ∧
    (mergeFunc key val0 val1).length = val0.length + val1.length + 1 := by
  refine ⟨mergeFunc_eq key val0 val1, fun key2 => ?_, ?_⟩
  · rw [mergeFunc_eq, mergeFunc_eq]
  · rw [mergeFunc_eq]
    simp only [List.length_append, List.length_cons]
    omega

/-- C3: for every sequence of `N` values presented for one key (`N ≥ 1`, so every `N ≥ 2`) and
every bracketing of the pairwise applications of `mergeFunc` that keeps their order, the merged
value is the values joined by single spaces: its length is the sum of the lengths plus `N - 1`, every value occupies its own
contiguous byte range at the position its predecessors leave it, and `mergeFunc` is
associative. -/
theorem merged_bracketing (key : Bytes) (t : Bracketing) :
    t.merged key = joinSpace t.values ∧
    (t.merged key).length = (t.values.map List.length).sum + (t.values.length - 1) ∧
    (∀ i, ((t.merged key).drop (offset t.values i)).take (t.values.getD i []).length
      = t.values.getD i []) ∧
    (∀ a b c : Bytes,
      mergeFunc key (mergeFunc key a b) c = mergeFunc key a (mergeFunc key b c)) := by
  refine ⟨merged_eq key t, ?_, ?_, ?_⟩
  · rw [merged_eq, joinSpace_length]
  · rw [merged_eq]
    exact joinSpace_range t.values
  · intro a b c
    simp [mergeFunc_eq]

/-! ## The loop body -/

/-- C1: with key index and value index at least 1, one pass of the loop body hands a pair to
`Add` if and only if the trimmed line is non-empty, its split has at least `indexKey` and at
least `indexVal` fields, the two selected fields are non-empty, and the key after the optional
reversal and the value are within `MTBL_KEY_LIMIT` and `MTBL_VAL_LIMIT`; the pair handed over
is the selected key field (reversed by `ReverseKey` when `-r` is set) and the selected value
field unchanged; at most one pair is handed over for a line. -/
theorem iteration_adds_iff (pkg : Inetdata) (cfg : Config) (addErr : Option Bytes)
    (text : Bytes) (hk : 1 ≤ cfg.indexKey) (hv : 1 ≤ cfg.indexVal) :
    (∀ key val, addedPairs (iteration pkg cfg addErr text).1 = [(key, val)] ↔
      ∃ fk fv,
        TrimSpace text ≠ [] ∧
        cfg.indexKey ≤ ((SplitN (TrimSpace text) cfg.delimiter cfg.maxFields).length : Int) ∧
        cfg.indexVal ≤ ((SplitN (TrimSpace text) cfg.delimiter cfg.maxFields).length : Int) ∧
        (SplitN (TrimSpace text) cfg.delimiter cfg.maxFields).get? (cfg.indexKey - 1).toNat
          = some fk ∧
        (SplitN (TrimSpace text) cfg.delimiter cfg.maxFields).get? (cfg.indexVal - 1).toNat
          = some fv ∧
        fk ≠ [] ∧ fv ≠ [] ∧
        key = (if cfg.reverseKey then pkg.ReverseKey fk else fk) ∧ val = fv ∧
        key.length ≤ pkg.MTBL_KEY_LIMIT ∧ val.length ≤ pkg.MTBL_VAL_LIMIT) ∧
    (addedPairs (iteration pkg cfg addErr text).1 = [] ∨
      ∃ key val, addedPairs (iteration pkg cfg addErr text).1 = [(key, val)]) := by
  have hit := addedPairs_iteration pkg cfg addErr text
  constructor
  · intro key val
    have hiff := lineStep_pair_iff pkg cfg text key val hk hv
    unfold Accepts at hiff
    rw [← hiff, hit]
    cases hs : lineStep pkg cfg text with
    | pair k v =>
      simp only [List.cons.injEq, Prod.mk.injEq, and_true, Step.pair.injEq]
    | skip => simp
    | diag ev => simp
    | panic => simp
  · rw [hit]
    cases hs : lineStep pkg cfg text with
    | pair k v => exact Or.inr ⟨k, v, rfl⟩
    | skip => exact Or.inl rfl
    | diag ev => exact Or.inl rfl
    | panic => exact Or.inl rfl

/-- C4: for a line whose trimmed text is non-empty and whose split has fewer fields than the
key index or than the value index, one pass of the loop body makes no `Add` call and writes
exactly one diagnostic to standard error, `No key: <line>` when the field count is below the
key index and `No value: <line>` otherwise; the diagnostic contains the trimmed line, and the
loop goes on with the next line. -/
theorem iteration_short_line (pkg : Inetdata) (cfg : Config) (addErr : Nat → Option Bytes)
    (n : Nat) (text : Bytes) (rest : List Bytes)
    (hraw : TrimSpace text ≠ [])
    (hshort : ((SplitN (TrimSpace text) cfg.delimiter cfg.maxFields).length : Int)
        < cfg.indexKey ∨
      ((SplitN (TrimSpace text) cfg.delimiter cfg.maxFields).length : Int) < cfg.indexVal) :
    iteration pkg cfg (addErr n) text =
      ([Event.stderr
        ((if ((SplitN (TrimSpace text) cfg.delimiter cfg.maxFields).length : Int)
            < cfg.indexKey then ascii "No key: " else ascii "No value: ")
          ++ TrimSpace text ++ ascii "\n")], true) ∧
    addedPairs (iteration pkg cfg (addErr n) text).1 = [] ∧
    TrimSpace text <:+:
      ((if ((SplitN (TrimSpace text) cfg.delimiter cfg.maxFields).length : Int)
          < cfg.indexKey then ascii "No key: " else ascii "No value: ")
        ++ TrimSpace text ++ ascii "\n") ∧
    readLoop pkg cfg addErr n (text :: rest) =
      (Event.stderr
        ((if ((SplitN (TrimSpace text) cfg.delimiter cfg.maxFields).length : Int)
            < cfg.indexKey then ascii "No key: " else ascii "No value: ")
          ++ TrimSpace text ++ ascii "\n") :: (readLoop pkg cfg addErr (n + 1) rest).1,
        (readLoop pkg cfg addErr (n + 1) rest).2) := by
  have hlen : ¬ (TrimSpace text).length = 0 := fun h => hraw (List.length_eq_zero.mp h)
  have hstep : lineStep pkg cfg text =
      .diag (.stderr
        ((if ((SplitN (TrimSpace text) cfg.delimiter cfg.maxFields).length : Int)
            < cfg.indexKey then ascii "No key: " else ascii "No value: ")
          ++ TrimSpace text ++ ascii "\n")) := by
    unfold lineStep
    simp only []
    rw [if_neg hlen]
    by_cases h1 : ((SplitN (TrimSpace text) cfg.delimiter cfg.maxFields).length : Int)
        < cfg.indexKey
    · rw [if_pos h1, if_pos h1]
      rfl
    · rw [if_neg h1, if_neg h1]
      have h2 := hshort.resolve_left h1
      rw [if_pos h2]
      rfl
  have hiter := iteration_diag pkg cfg (addErr n) text _ hstep
  refine ⟨hiter, ?_, ?_, ?_⟩
  · rw [hiter]
    rfl
  · exact ⟨_, ascii "\n", rfl⟩
  · rw [readLoop_cons pkg cfg addErr n text rest (by rw [hiter]), hiter]
    rfl

/-- C5: for a line that is empty after trimming, and for a line that has enough fields for both
indices (indices at least 1) but whose selected key field or selected value field is empty,
one pass of the loop body produces no event at all: no `Add` call and no diagnostic, and the
loop goes on. -/
theorem iteration_silent_skip (pkg : Inetdata) (cfg : Config) (addErr : Option Bytes)
    (text : Bytes)
    (h : TrimSpace text = [] ∨
      (1 ≤ cfg.indexKey ∧ 1 ≤ cfg.indexVal ∧
        cfg.indexKey ≤ ((SplitN (TrimSpace text) cfg.delimiter cfg.maxFields).length : Int) ∧
        cfg.indexVal ≤ ((SplitN (TrimSpace text) cfg.delimiter cfg.maxFields).length : Int) ∧
        ((SplitN (TrimSpace text) cfg.delimiter cfg.maxFields).get? (cfg.indexKey - 1).toNat
            = some [] ∨
         (SplitN (TrimSpace text) cfg.delimiter cfg.maxFields).get? (cfg.indexVal - 1).toNat
            = some []))) :
    iteration pkg cfg addErr text = ([], true) := by
  apply iteration_skip
  rcases h with h | ⟨hk, hv, hlk, hlv, hempty⟩
  · unfold lineStep
    simp [h]
  · rcases lineStep_cases pkg cfg text hk hv with
      hc | hc | hc | ⟨_, _, _, fk, fv, hfk, hfv, hc | hc | hc⟩
    · exact hc.2
    · omega
    · omega
    · exact hc.2
    · exfalso
      rcases hempty with he | he
      · rw [hfk] at he
        exact hc.1 (Option.some.inj he)
      · rw [hfv] at he
        exact hc.2.1 (Option.some.inj he)
    · exfalso
      rcases hempty with he | he
      · rw [hfk] at he
        exact hc.1 (Option.some.inj he)
      · rw [hfv] at he
        exact hc.2.1 (Option.some.inj he)

/-- C6: for a line from which a pair is extracted (indices at least 1, enough fields, both
selected fields non-empty): when the key after the optional reversal is longer than
`MTBL_KEY_LIMIT` or the value longer than `MTBL_VAL_LIMIT`, the pass makes no `Add` call,
writes one diagnostic and the loop goes on with the next line; when both lengths are at most
their limits (equality included) the pair is handed to `Add`; and in every run every pair
passed to `Sorter.Add` or `Writer.Add` has a key of at most `MTBL_KEY_LIMIT` bytes and a value
of at most `MTBL_VAL_LIMIT` bytes. -/
theorem iteration_size_limits (pkg : Inetdata) (cfg : Config) (addErr : Nat → Option Bytes)
    (n : Nat) (text : Bytes) (rest : List Bytes) (fk fv : Bytes)
    (hk : 1 ≤ cfg.indexKey) (hv : 1 ≤ cfg.indexVal)
    (hraw : TrimSpace text ≠ [])
    (hfk : (SplitN (TrimSpace text) cfg.delimiter cfg.maxFields).get?
      (cfg.indexKey - 1).toNat = some fk)
    (hfv : (SplitN (TrimSpace text) cfg.delimiter cfg.maxFields).get?
      (cfg.indexVal - 1).toNat = some fv)
    (hk0 : fk ≠ []) (hv0 : fv ≠ []) :
    (((if cfg.reverseKey then pkg.ReverseKey fk else fk).length > pkg.MTBL_KEY_LIMIT ∨
        fv.length > pkg.MTBL_VAL_LIMIT) →
      iteration pkg cfg (addErr n) text = ([Event.stdout longMsg], true) ∧
      addedPairs (iteration pkg cfg (addErr n) text).1 = [] ∧
      readLoop pkg cfg addErr n (text :: rest) =
        (Event.stdout longMsg :: (readLoop pkg cfg addErr (n + 1) rest).1,
          (readLoop pkg cfg addErr (n + 1) rest).2)) ∧
    (((if cfg.reverseKey then pkg.ReverseKey fk else fk).length ≤ pkg.MTBL_KEY_LIMIT ∧
        fv.length ≤ pkg.MTBL_VAL_LIMIT) →
      addedPairs (iteration pkg cfg (addErr n) text).1 =
        [(if cfg.reverseKey then pkg.ReverseKey fk else fk, fv)]) ∧
    (∀ (w : World), ∀ p ∈ addedPairs (main pkg cfg w).trace,
      p.1.length ≤ pkg.MTBL_KEY_LIMIT ∧ p.2.length ≤ pkg.MTBL_VAL_LIMIT) := by
  have hget : ∀ i : Nat, ∀ x : Bytes,
      (SplitN (TrimSpace text) cfg.delimiter cfg.maxFields).get? i = some x →
      i < (SplitN (TrimSpace text) cfg.delimiter cfg.maxFields).length := by
    intro i x hx
    by_contra hge
    rw [List.get?_eq_none.mpr (by omega)] at hx
    simp at hx
  have hlk := hget _ _ hfk
  have hlv := hget _ _ hfv
  refine ⟨?_, ?_, ?_⟩
  · intro hlong
    have hstep : lineStep pkg cfg text = .diag (.stdout longMsg) := by
      rcases lineStep_cases pkg cfg text hk hv with
        hc | hc | hc | ⟨_, _, _, fk2, fv2, hfk2, hfv2, hc⟩
      · exact absurd hc.1 hraw
      · omega
      · omega
      · rw [hfk] at hfk2
        rw [hfv] at hfv2
        cases hfk2
        cases hfv2
        rcases hc with hc | hc | hc
        · rcases hc.1 with he | he
          · exact absurd he hk0
          · exact absurd he hv0
        · exact hc.2.2.2
        · exfalso
          have h1 := hc.2.2.1
          have h2 := hc.2.2.2.1
          unfold keyOf at h1
          omega
    have hiter := iteration_diag pkg cfg (addErr n) text _ hstep
    refine ⟨hiter, ?_, ?_⟩
    · rw [hiter]
      rfl
    · rw [readLoop_cons pkg cfg addErr n text rest (by rw [hiter]), hiter]
      rfl
  · intro hfit
    have hstep : lineStep pkg cfg text =
        .pair (if cfg.reverseKey then pkg.ReverseKey fk else fk) fv := by
      rw [lineStep_pair_iff pkg cfg text _ _ hk hv]
      exact ⟨fk, fv, hraw, by omega, by omega, hfk, hfv, hk0, hv0, rfl, rfl, hfit.1, hfit.2⟩
    rw [iteration_pair pkg cfg (addErr n) text _ _ hstep]
    exact addedPairs_addEvents cfg _ _ _
  · intro w p hp
    have hloop := addedPairs_readLoop_fit pkg cfg w.addErr w.lines 0 p
    apply hloop
    rcases main_cases pkg cfg w with
      hm | hm | ⟨_, hm⟩ | ⟨fname, compAlg, _, _, _, hm⟩
    · rw [hm.2] at hp
      simp [addedPairs] at hp
    · rw [hm.2.2] at hp
      simp [addedPairs] at hp
    · rw [hm.2.2.2] at hp
      simp [addedPairs] at hp
    · rcases hm with ⟨_, hm⟩ | hm | ⟨_, hm⟩ | hm | ⟨_, hm⟩ | hm
      · rw [hm.2] at hp
        simp [addedPairs] at hp
      · rw [hm.2.2] at hp
        simpa [addedPairs, addedPairs_append, deferred] using hp
      · rw [hm.2.2.2] at hp
        simpa [addedPairs, addedPairs_append, deferred] using hp
      · rw [hm.2.2.2.2] at hp
        simpa [addedPairs, addedPairs_append, deferred] using hp
      · rw [hm.2.2.2.2.2] at hp
        simpa [addedPairs, addedPairs_append, deferred] using hp
      · rw [hm.2.2.2.2.2] at hp
        simpa [addedPairs, addedPairs_append, deferred] using hp

/-- C10: for every line, every delimiter and every `maxFields` (negative, zero or positive),
with key index and value index at least 1 the loop body never panics: whenever the two length
checks pass, `bits[indexKey-1]` and `bits[indexVal-1]` are within the bounds of the split
result, so the pass ends in a pair or in a skip (silent or with a diagnostic) and the read
loop runs to the end of the input. -/
theorem iteration_no_panic (pkg : Inetdata) (cfg : Config) (text : Bytes)
    (hk : 1 ≤ cfg.indexKey) (hv : 1 ≤ cfg.indexVal) :
    lineStep pkg cfg text ≠ .panic ∧
    (lineStep pkg cfg text = .skip ∨ (∃ ev, lineStep pkg cfg text = .diag ev) ∨
      ∃ key val, lineStep pkg cfg text = .pair key val) ∧
    (¬ ((SplitN (TrimSpace text) cfg.delimiter cfg.maxFields).length : Int) < cfg.indexKey →
      (index (SplitN (TrimSpace text) cfg.delimiter cfg.maxFields) (cfg.indexKey - 1)).isSome
        = true) ∧
    (¬ ((SplitN (TrimSpace text) cfg.delimiter cfg.maxFields).length : Int) < cfg.indexVal →
      (index (SplitN (TrimSpace text) cfg.delimiter cfg.maxFields) (cfg.indexVal - 1)).isSome
        = true) ∧
    (∀ addErr : Option Bytes, (iteration pkg cfg addErr text).2 = true) ∧
    (∀ (addErr : Nat → Option Bytes) (n : Nat) (lines : List Bytes),
      (readLoop pkg cfg addErr n lines).2 = true) := by
  have hne := lineStep_ne_panic pkg cfg text hk hv
  refine ⟨hne, ?_, ?_, ?_, ?_, ?_⟩
  · cases hs : lineStep pkg cfg text with
    | skip => exact Or.inl rfl
    | diag ev => exact Or.inr (Or.inl ⟨ev, rfl⟩)
    | pair k v => exact Or.inr (Or.inr ⟨k, v, rfl⟩)
    | panic => exact absurd hs hne
  · intro h
    obtain ⟨f, hf⟩ := get?_pred_of_le _ _ hk h
    rw [index_pred _ _ hk, hf]
    rfl
  · intro h
    obtain ⟨f, hf⟩ := get?_pred_of_le _ _ hv h
    rw [index_pred _ _ hv, hf]
    rfl
  · intro addErr
    exact iteration_snd pkg cfg addErr text hk hv
  · intro addErr n lines
    exact readLoop_snd pkg cfg addErr hk hv lines n

/-! ## The whole run -/

theorem sorterWrite_count_readLoop (pkg : Inetdata) (cfg : Config)
    (addErr : Nat → Option Bytes) (lines : List Bytes) (n : Nat) :
    List.count Event.sorterWrite (readLoop pkg cfg addErr n lines).1 = 0 :=
  List.count_eq_zero.mpr (sorterWrite_not_mem_readLoop pkg cfg addErr lines n)

/-- The exit status of a run that gets past the argument checks, with indices at least 1. -/
theorem main_exit_eq (pkg : Inetdata) (cfg : Config) (w : World)
    (hver : cfg.version = false) (hargs : cfg.args.length = 1)
    (hk : 1 ≤ cfg.indexKey) (hv : 1 ≤ cfg.indexVal) :
    (main pkg cfg w).exit =
      if pkg.MTBLCompressionTypes cfg.compression = none ∨ w.writerInitErr ≠ none ∨
        w.scanErr ≠ none ∨ (cfg.sortSkip = false ∧ w.sorterWriteErr ≠ none) then 1 else 0 := by
  have hloop := readLoop_snd pkg cfg w.addErr hk hv w.lines 0
  rcases main_cases pkg cfg w with
    hm | hm | ⟨_, _, _, hc, hm⟩ | ⟨fname, compAlg, _, _, hc, hm⟩
  · rw [hm.1] at hver
    simp at hver
  · exact absurd hargs hm.2.1
  · rw [hm, if_pos (Or.inl hc)]
  · rcases hm with ⟨we, ho, hm⟩ | ⟨_, hl, _⟩ | ⟨err, ho, _, hs, hm⟩ | ⟨ho, _, hs, hsk, hm⟩ |
      ⟨e, ho, _, hs, hsk, hwr, hm⟩ | ⟨ho, _, hs, hsk, hwr, hm⟩
    · rw [hm, if_pos (Or.inr (Or.inl (by rw [ho]; simp)))]
    · rw [hloop] at hl
      simp at hl
    · rw [hm, if_pos (Or.inr (Or.inr (Or.inl (by rw [hs]; simp))))]
    · rw [hm, if_neg]
      simp [hc, ho, hs, hsk]
    · rw [hm, if_pos (Or.inr (Or.inr (Or.inr ⟨hsk, by rw [hwr]; simp⟩)))]
    · rw [hm, if_neg]
      simp [hc, ho, hs, hsk, hwr]

/-- C7, amended: on a run that reaches the read loop, when `-S` is set every accepted pair is
added directly to the writer in input order and the sorter receives no `Add` and no `Write`;
when `-S` is not set every accepted pair is added to the sorter in input order and the writer
receives no direct `Add`; the sorter is then drained into the writer exactly once, after all
the `Add` calls, when the scanner reports no read error (indices at least 1), and is not
drained at all when the scanner reports a read error. -/
theorem main_sort_routing (pkg : Inetdata) (cfg : Config) (w : World) (fname : Bytes)
    (compAlg : Int) (hver : cfg.version = false) (hargs : cfg.args = [fname])
    (hcomp : pkg.MTBLCompressionTypes cfg.compression = some compAlg)
    (hopen : w.writerInitErr = none) :
    (cfg.sortSkip = true →
      writerAdds (main pkg cfg w).trace = accepted pkg cfg w.lines ∧
      sorterAdds (main pkg cfg w).trace = [] ∧
      Event.sorterWrite ∉ (main pkg cfg w).trace) ∧
    (cfg.sortSkip = false →
      sorterAdds (main pkg cfg w).trace = accepted pkg cfg w.lines ∧
      writerAdds (main pkg cfg w).trace = [] ∧
      (w.scanErr = none → 1 ≤ cfg.indexKey → 1 ≤ cfg.indexVal →
        List.count Event.sorterWrite (main pkg cfg w).trace = 1 ∧
        ∃ pre post, (main pkg cfg w).trace = pre ++ Event.sorterWrite :: post ∧
          sorterAdds pre = accepted pkg cfg w.lines ∧ addedPairs post = []) ∧
      (w.scanErr ≠ none → Event.sorterWrite ∉ (main pkg cfg w).trace)) := by
  have hsa := sorterAdds_readLoop pkg cfg w.addErr w.lines 0
  have hwa := writerAdds_readLoop pkg cfg w.addErr w.lines 0
  have hnw := sorterWrite_not_mem_readLoop pkg cfg w.addErr w.lines 0
  have hcnt := sorterWrite_count_readLoop pkg cfg w.addErr w.lines 0
  rcases main_cases pkg cfg w with
    hm | hm | ⟨_, _, _, hc, _⟩ | ⟨fname2, compAlg2, _, _, _, hm⟩
  · rw [hm.1] at hver
    simp at hver
  · rw [hargs] at hm
    simp at hm
  · rw [hc] at hcomp
    simp at hcomp
  · rcases hm with ⟨we, ho, _⟩ | ⟨_, hl, hm⟩ | ⟨err, _, _, hs, hm⟩ | ⟨_, _, hs, hsk, hm⟩ |
      ⟨e, _, _, hs, hsk, hwr, hm⟩ | ⟨_, _, hs, hsk, hwr, hm⟩
    · rw [ho] at hopen
      simp at hopen
    · have hidx : ¬ (1 ≤ cfg.indexKey ∧ 1 ≤ cfg.indexVal) := by
        intro hidx
        rw [readLoop_snd pkg cfg w.addErr hidx.1 hidx.2 w.lines 0] at hl
        simp at hl
      rw [hm]
      simp only [sorterAdds_append, writerAdds_append, hsa, hwa, List.mem_append, not_or]
      refine ⟨fun hsk => ?_, fun hsk => ?_⟩
      · simp [hsk, sorterAdds, writerAdds, deferred, hnw]
      · refine ⟨by simp [hsk, sorterAdds, deferred], by simp [hsk, writerAdds, deferred],
          fun _ h1 h2 => absurd ⟨h1, h2⟩ hidx, fun _ => by simp [deferred, hnw]⟩
    · rw [hm]
      simp only [sorterAdds_append, writerAdds_append, hsa, hwa, List.mem_append, not_or]
      refine ⟨fun hsk => ?_, fun hsk => ?_⟩
      · simp [hsk, sorterAdds, writerAdds, hnw]
      · refine ⟨by simp [hsk, sorterAdds], by simp [hsk, writerAdds],
          fun h => ?_, fun _ => by simp [hnw]⟩
        rw [hs] at h
        simp at h
    · rw [hm]
      simp only [sorterAdds_append, writerAdds_append, hsa, hwa, List.mem_append, not_or]
      refine ⟨fun _ => ?_, fun h => ?_⟩
      · simp [hsk, sorterAdds, writerAdds, deferred, hnw]
      · rw [hsk] at h
        simp at h
    · rw [hm]
      simp only [sorterAdds_append, writerAdds_append, hsa, hwa]
      refine ⟨fun h => ?_, fun _ => ?_⟩
      · rw [hsk] at h
        simp at h
      · refine ⟨by simp [hsk, sorterAdds], by simp [hsk, writerAdds], fun _ _ _ => ⟨?_, ?_⟩,
          fun h => absurd hs h⟩
        · simp [List.count_append, hcnt, List.count_cons]
        · refine ⟨[Event.sorterInit, Event.writerInit fname2 compAlg2]
            ++ (readLoop pkg cfg w.addErr 0 w.lines).1, [Event.stderr (errorMsg e)], ?_, ?_, ?_⟩
          · simp
          · simp [sorterAdds_append, hsa, hsk, sorterAdds]
          · rfl
    · rw [hm]
      simp only [sorterAdds_append, writerAdds_append, hsa, hwa]
      refine ⟨fun h => ?_, fun _ => ?_⟩
      · rw [hsk] at h
        simp at h
      · refine ⟨by simp [hsk, sorterAdds, deferred], by simp [hsk, writerAdds, deferred],
          fun _ _ _ => ⟨?_, ?_⟩, fun h => absurd hs h⟩
        · simp [List.count_append, hcnt, List.count_cons, deferred]
        · refine ⟨[Event.sorterInit, Event.writerInit fname2 compAlg2]
            ++ (readLoop pkg cfg w.addErr 0 w.lines).1, deferred, ?_, ?_, ?_⟩
          · simp
          · simp [sorterAdds_append, hsa, hsk, sorterAdds]
          · rfl

/-- C8: for every run with exactly one positional argument, no version flag and key and value
index at least 1, the exit status is nonzero if and only if the compression name is not in the
compression table, or opening the writer fails, or the scanner reports a read error, or (with
`-S` off) the sorter's `Write` fails; the input lines and the errors returned by the `Add` calls
do not change the exit status. -/
theorem main_exit_iff (pkg : Inetdata) (cfg : Config) (w : World)
    (hver : cfg.version = false) (hargs : cfg.args.length = 1)
    (hk : 1 ≤ cfg.indexKey) (hv : 1 ≤ cfg.indexVal) :
    ((main pkg cfg w).exit ≠ 0 ↔
      (pkg.MTBLCompressionTypes cfg.compression = none ∨ w.writerInitErr ≠ none ∨
        w.scanErr ≠ none ∨ (cfg.sortSkip = false ∧ w.sorterWriteErr ≠ none))) ∧
    (∀ (lines2 : List Bytes) (addErr2 : Nat → Option Bytes),
      (main pkg cfg ⟨lines2, w.scanErr, w.writerInitErr, addErr2, w.sorterWriteErr⟩).exit
        = (main pkg cfg w).exit) := by
  constructor
  · rw [main_exit_eq pkg cfg w hver hargs hk hv]
    split_ifs with h
    · simp [h]
    · simp [h]
  · intro lines2 addErr2
    rw [main_exit_eq pkg cfg w hver hargs hk hv, main_exit_eq pkg cfg _ hver hargs hk hv]

/-- The events of the read loop are `Add` calls and writes to the standard streams. -/
theorem readLoop_event_kinds (pkg : Inetdata) (cfg : Config) (addErr : Nat → Option Bytes)
    (lines : List Bytes) :
    ∀ n, ∀ ev ∈ (readLoop pkg cfg addErr n lines).1,
      (∃ k v, ev = Event.sorterAdd k v) ∨ (∃ k v, ev = Event.writerAdd k v) ∨
      (∃ m, ev = Event.stderr m) ∨ (∃ m, ev = Event.stdout m) := by
  induction lines with
  | nil => intro n ev hev; simp [readLoop] at hev
  | cons text rest ih =>
    intro n ev hev
    have hit : ∀ e ∈ (iteration pkg cfg (addErr n) text).1,
        (∃ k v, e = Event.sorterAdd k v) ∨ (∃ k v, e = Event.writerAdd k v) ∨
        (∃ m, e = Event.stderr m) ∨ (∃ m, e = Event.stdout m) := by
      intro e he
      rcases iteration_events pkg cfg (addErr n) text with
        ⟨k, v, _, hi⟩ | ⟨_, hi | ⟨m, hi⟩ | ⟨m, hi⟩⟩
      · rw [hi] at he
        unfold addEvents at he
        cases hsk : cfg.sortSkip <;> cases hae : addErr n <;> simp [hsk, hae] at he
        · exact Or.inl ⟨k, v, he⟩
        · rcases he with he | he
          · exact Or.inl ⟨k, v, he⟩
          · exact Or.inr (Or.inr (Or.inr ⟨_, he⟩))
        · exact Or.inr (Or.inl ⟨k, v, he⟩)
        · rcases he with he | he
          · exact Or.inr (Or.inl ⟨k, v, he⟩)
          · exact Or.inr (Or.inr (Or.inr ⟨_, he⟩))
      · rw [hi] at he; simp at he
      · rw [hi] at he
        simp only [List.mem_singleton] at he
        exact Or.inr (Or.inr (Or.inl ⟨m, he⟩))
      · rw [hi] at he
        simp only [List.mem_singleton] at he
        exact Or.inr (Or.inr (Or.inr ⟨m, he⟩))
    rw [readLoop_unfold] at hev
    split_ifs at hev
    · rcases List.mem_append.mp hev with h | h
      · exact hit ev h
      · exact ih (n + 1) ev h
    · exact hit ev hev

theorem destroy_count_readLoop (pkg : Inetdata) (cfg : Config) (addErr : Nat → Option Bytes)
    (lines : List Bytes) (n : Nat) :
    List.count Event.sorterDestroy (readLoop pkg cfg addErr n lines).1 = 0 ∧
    List.count Event.writerDestroy (readLoop pkg cfg addErr n lines).1 = 0 := by
  constructor <;>
  · rw [List.count_eq_zero]
    intro hmem
    rcases readLoop_event_kinds pkg cfg addErr lines n _ hmem with
      ⟨_, _, h⟩ | ⟨_, _, h⟩ | ⟨_, h⟩ | ⟨_, h⟩ <;> simp at h

/-- On a run that has created the sorter and the writer, `Sorter.Destroy` and `Writer.Destroy`
are each called once when `main` returns or panics, and not at all when the process ends
through `os.Exit(1)`. -/
theorem main_destroy_count (pkg : Inetdata) (cfg : Config) (w : World) (fname : Bytes)
    (compAlg : Int) (hver : cfg.version = false) (hargs : cfg.args = [fname])
    (hcomp : pkg.MTBLCompressionTypes cfg.compression = some compAlg)
    (hopen : w.writerInitErr = none) :
    List.count Event.sorterDestroy (main pkg cfg w).trace
      = (if (main pkg cfg w).exit = 1 then 0 else 1) ∧
    List.count Event.writerDestroy (main pkg cfg w).trace
      = (if (main pkg cfg w).exit = 1 then 0 else 1) := by
  have hd := destroy_count_readLoop pkg cfg w.addErr w.lines 0
  rcases main_cases pkg cfg w with
    hm | hm | ⟨_, _, _, hc, _⟩ | ⟨fname2, compAlg2, _, _, _, hm⟩
  · rw [hm.1] at hver
    simp at hver
  · rw [hargs] at hm
    simp at hm
  · rw [hc] at hcomp
    simp at hcomp
  · rcases hm with ⟨we, ho, _⟩ | ⟨_, _, hm⟩ | ⟨err, _, _, _, hm⟩ | ⟨_, _, _, _, hm⟩ |
      ⟨e, _, _, _, _, _, hm⟩ | ⟨_, _, _, _, _, hm⟩
    · rw [ho] at hopen
      simp at hopen
    all_goals
      rw [hm]
      simp [List.count_append, List.count_cons, hd.1, hd.2, deferred]

/-- C7, as stated, fails: with `-S` off and an input whose line `a,1` is followed by a read
error, the pair is added to the sorter and the process exits without draining the sorter into
the writer. -/
theorem main_read_error_no_drain :
    defaultCfg.sortSkip = false ∧
    sorterAdds (main specPkg defaultCfg readErrorWorld).trace = [(ascii "a", ascii "1")] ∧
    ¬ List.count Event.sorterWrite (main specPkg defaultCfg readErrorWorld).trace = 1 := by
  decide

/-- C9: on a run that has created the sorter and the writer and ends through a fatal path, the
read error of `readErrorWorld` or the failed `Write` of `writeFailWorld`, the process exits
with status 1 without any call of `Sorter.Destroy` or `Writer.Destroy`. -/
theorem main_fatal_exit_skips_destroy :
    ((main specPkg defaultCfg readErrorWorld).exit = 1 ∧
      Event.sorterInit ∈ (main specPkg defaultCfg readErrorWorld).trace ∧
      Event.writerInit (ascii "out.mtbl") 1 ∈ (main specPkg defaultCfg readErrorWorld).trace ∧
      List.count Event.sorterDestroy (main specPkg defaultCfg readErrorWorld).trace = 0 ∧
      List.count Event.writerDestroy (main specPkg defaultCfg readErrorWorld).trace = 0) ∧
    ((main specPkg defaultCfg writeFailWorld).exit = 1 ∧
      Event.sorterInit ∈ (main specPkg defaultCfg writeFailWorld).trace ∧
      Event.writerInit (ascii "out.mtbl") 1 ∈ (main specPkg defaultCfg writeFailWorld).trace ∧
      List.count Event.sorterDestroy (main specPkg defaultCfg writeFailWorld).trace = 0 ∧
      List.count Event.writerDestroy (main specPkg defaultCfg writeFailWorld).trace = 0) := by
  decide

/-! ## Evaluations on concrete inputs -/

/-- The line ` a,1 ` under the default flags hands the pair `(a, 1)` to `Add`. -/
theorem iteration_adds_iff_witness :
    (1 : Int) ≤ defaultCfg.indexKey ∧ (1 : Int) ≤ defaultCfg.indexVal ∧
    addedPairs (iteration specPkg defaultCfg none (ascii " a,1 ")).1
      = [(ascii "a", ascii "1")] :=
  ⟨by decide, by decide,
    ((iteration_adds_iff specPkg defaultCfg none (ascii " a,1 ") (by decide) (by decide)).1
      (ascii "a") (ascii "1")).mpr
      ⟨ascii "a", ascii "1", by decide, by decide, by decide, by decide, by decide, by decide,
        by decide, by decide, by decide, by decide, by decide⟩⟩

/-- The line `onlyonefield` under the default flags yields the one diagnostic
`No value: onlyonefield`. -/
theorem iteration_short_line_witness :
    TrimSpace (ascii "onlyonefield") ≠ [] ∧
    ((SplitN (TrimSpace (ascii "onlyonefield")) defaultCfg.delimiter
      defaultCfg.maxFields).length : Int) < defaultCfg.indexVal ∧
    iteration specPkg defaultCfg none (ascii "onlyonefield")
      = ([Event.stderr (ascii "No value: onlyonefield\n")], true) :=
  ⟨by decide, by decide,
    (iteration_short_line specPkg defaultCfg (fun _ => none) 0 (ascii "onlyonefield") []
      (by decide) (Or.inr (by decide))).1.trans (by decide)⟩

/-- The line `b,` under the default flags, whose value field is empty, yields no event. -/
theorem iteration_silent_skip_witness :
    (SplitN (TrimSpace (ascii "b,")) defaultCfg.delimiter defaultCfg.maxFields).get?
      (defaultCfg.indexVal - 1).toNat = some [] ∧
    iteration specPkg defaultCfg none (ascii "b,") = ([], true) :=
  ⟨by decide,
    iteration_silent_skip specPkg defaultCfg none (ascii "b,")
      (Or.inr ⟨by decide, by decide, by decide, by decide, Or.inr (by decide)⟩)⟩

/-- A key of exactly `MTBL_KEY_LIMIT` bytes is handed to `Add`. -/
theorem iteration_size_limits_witness :
    (ascii "aaaaaaaaaaaaaaaa").length = specPkg.MTBL_KEY_LIMIT ∧
    addedPairs (iteration specPkg defaultCfg none (ascii "aaaaaaaaaaaaaaaa,1")).1
      = [(ascii "aaaaaaaaaaaaaaaa", ascii "1")] :=
  ⟨by decide,
    (iteration_size_limits specPkg defaultCfg (fun _ => none) 0 (ascii "aaaaaaaaaaaaaaaa,1") []
      (ascii "aaaaaaaaaaaaaaaa") (ascii "1") (by decide) (by decide) (by decide) (by decide)
      (by decide) (by decide) (by decide)).2.1 ⟨by decide, by decide⟩⟩

/-- With `-M 0` the split is empty and the loop body still does not panic. -/
theorem iteration_no_panic_witness :
    lineStep specPkg ⟨1, 2, false, 0, ascii "snappy", ascii ",", false, false,
      [ascii "out.mtbl"]⟩ (ascii "a,1") ≠ Step.panic :=
  (iteration_no_panic specPkg ⟨1, 2, false, 0, ascii "snappy", ascii ",", false, false,
    [ascii "out.mtbl"]⟩ (ascii "a,1") (by decide) (by decide)).1

/-- On the input `a,1`, `b,2`, `a,3` with `-S` off the three pairs go to the sorter, which is
drained once. -/
theorem main_sort_routing_witness :
    sorterAdds (main specPkg defaultCfg (quietWorld [ascii "a,1", ascii "b,2", ascii "a,3"])).trace
      = accepted specPkg defaultCfg [ascii "a,1", ascii "b,2", ascii "a,3"] ∧
    List.count Event.sorterWrite
      (main specPkg defaultCfg (quietWorld [ascii "a,1", ascii "b,2", ascii "a,3"])).trace = 1 :=
  ⟨((main_sort_routing specPkg defaultCfg (quietWorld [ascii "a,1", ascii "b,2", ascii "a,3"])
      (ascii "out.mtbl") 1 (by decide) (by decide) (by decide) (by decide)).2 (by decide)).1,
   (((main_sort_routing specPkg defaultCfg (quietWorld [ascii "a,1", ascii "b,2", ascii "a,3"])
      (ascii "out.mtbl") 1 (by decide) (by decide) (by decide) (by decide)).2
        (by decide)).2.2.1 (by decide) (by decide) (by decide)).1⟩

/-- A run over short, over-long and empty-valued lines and a failing `Add` exits with
status 0. -/
theorem main_exit_iff_witness :
    defaultCfg.version = false ∧ defaultCfg.args.length = 1 ∧
    (main specPkg defaultCfg dirtyWorld).exit = 0 :=
  ⟨by decide, by decide,
    Decidable.byContradiction fun h =>
      absurd ((main_exit_iff specPkg defaultCfg dirtyWorld (by decide) (by decide) (by decide)
        (by decide)).1.mp h) (by decide)⟩

end Csv2mtbl
